import Mathlib

/-!
A verification development for the `epd-dither` repository (barycentric
palette decomposition and error-diffusion dithering).

The generic real-like scalar type `T` of the Rust sources is modelled as `ℚ`
(exact arithmetic); numeric literals of the source are carried over as exact
decimal fractions.  Fallible Rust constructors (`Option<Self>`) become
`Option`-returning Lean functions, and the single `panic!()` in
`DecomposerBruteforce::decompose` is modelled as the `none` case of an
`Option` result.
-/

namespace EpdDither

/-- A 3-component point / vector (`nalgebra::Point3<T>` / `Vector3<T>`), over `ℚ`. -/
abbrev Vec3 := ℚ × ℚ × ℚ

/-- Componentwise subtraction of 3-vectors. -/
def vsub (a b : Vec3) : Vec3 := (a.1 - b.1, a.2.1 - b.2.1, a.2.2 - b.2.2)

/-- Componentwise addition of 3-vectors. -/
def vadd (a b : Vec3) : Vec3 := (a.1 + b.1, a.2.1 + b.2.1, a.2.2 + b.2.2)

/-- Scalar multiplication of a 3-vector. -/
def vscale (a : Vec3) (t : ℚ) : Vec3 := (a.1 * t, a.2.1 * t, a.2.2 * t)

/-- Dot product of 3-vectors. -/
def vdot (a b : Vec3) : ℚ := a.1 * b.1 + a.2.1 * b.2.1 + a.2.2 * b.2.2

/-- `norm_squared` of a 3-vector. -/
def normSq (a : Vec3) : ℚ := vdot a a

/-- Cross product of 3-vectors (`nalgebra`'s `Vector3::cross`). -/
def vcross (a b : Vec3) : Vec3 :=
  (a.2.1 * b.2.2 - a.2.2 * b.2.1,
   a.2.2 * b.1 - a.1 * b.2.2,
   a.1 * b.2.1 - a.2.1 * b.1)

/-- Truncation toward zero, as Rust's `f32::trunc` behaves on our exact scalars. -/
def rustTrunc (q : ℚ) : ℤ := if 0 ≤ q then ⌊q⌋ else ⌈q⌉

/-- Rust's `fract`: `self - self.trunc()`. -/
def rustFract (q : ℚ) : ℚ := q - rustTrunc q

/-- `interleaved_gradient_noise` from `src/noise.rs`, literals carried over
exactly: the second multiplier in the source is `52.983_917`. -/
def interleaved_gradient_noise (x y : ℚ) : ℚ :=
  let inner1 : ℚ := x * (6711056 / 100000000) + y * (583715 / 100000000)
  let inner2 : ℚ := rustFract inner1 * (52983917 / 1000000)
  rustFract inner2

/-- The formula claimed by the spec (and by the comment in `src/noise.rs`):
`fract(52.9829189 * fract(0.06711056*x + 0.00583715*y))`. -/
def ignSpecFormula (x y : ℚ) : ℚ :=
  rustFract (rustFract ((6711056 / 100000000) * x + (583715 / 100000000) * y)
    * (529829189 / 10000000))

/-- `LineProjector` from `src/barycentric/line.rs`. -/
structure LineProjector where
  origin : Vec3
  direction : Vec3
  length_squared : ℚ
deriving Repr

/-- `LineProjector::new([a, b])`: infallible in the source, it always returns a
projector (degeneracy is not checked at construction time). -/
def LineProjector.new (a b : Vec3) : LineProjector :=
  { origin := a, direction := vsub b a, length_squared := normSq (vsub b a) }

/-- `LineProjector::project`: barycentric coordinates `[1 - t, t]`, with the two
early returns of the source for a zero-length line and for `pt = origin`. -/
def LineProjector.project (l : LineProjector) (pt : Vec3) : ℚ × ℚ :=
  if l.length_squared = 0 then (1, 0)
  else
    let origin_to_pt := vsub pt l.origin
    if normSq origin_to_pt = 0 then (1, 0)
    else
      let t := vdot origin_to_pt l.direction / l.length_squared
      (1 - t, t)

/-- `LineProjector::bary_to_point`. -/
def LineProjector.bary_to_point (l : LineProjector) (bc : ℚ × ℚ) : Vec3 :=
  vadd l.origin (vscale l.direction bc.2)

/-- `LineProjector::clipping_project`: clamps a projection falling outside the
segment to the nearer endpoint and reports whether clamping happened. -/
def LineProjector.clipping_project (l : LineProjector) (pt : Vec3) :
    (ℚ × ℚ) × Bool :=
  let ret := l.project pt
  if ret.1 < 0 then ((0, 1), true)
  else if ret.2 < 0 then ((1, 0), true)
  else (ret, false)

/-- `Iterator::reduce`: `none` on an empty list, otherwise a left fold of the
tail onto the head. -/
def reduceList {α : Type} (f : α → α → α) : List α → Option α
  | [] => none
  | a :: r => some (r.foldl f a)

/-- `nalgebra`'s `.min()` over the entries of a (nonempty, fixed-size) vector,
modelled on lists. -/
def vecMin : List ℚ → ℚ
  | [] => 0
  | a :: r => r.foldl min a

/-- `nalgebra`'s `.max()` over the entries of a (nonempty, fixed-size) vector,
modelled on lists. -/
def vecMax : List ℚ → ℚ
  | [] => 0
  | a :: r => r.foldl max a

/-- `itertools`' `combinations(k)`: all `k`-element sublists in lexicographic
order of positions. -/
def combinations {α : Type} : ℕ → List α → List (List α)
  | 0, _ => [[]]
  | _ + 1, [] => []
  | k + 1, x :: xs => ((combinations k xs).map (fun c => x :: c)) ++ combinations (k + 1) xs

/-- Modelled from the spec: `src/barycentric/tetrahedron.rs` is not under
`src/`; the tetrahedron projector is abstracted to the interface its caller
uses — `project` returns the local barycentric coordinate vector. -/
structure TetrahedronProjector where
  project : Vec3 → List ℚ

/-- Modelled from the spec: `src/barycentric/triangle.rs` is not under `src/`;
the triangle projector is abstracted to the interface its caller uses —
`project` returns (local barycentric vector, signed distance to the
triangle's plane). -/
structure TriangleProjector where
  project : Vec3 → List ℚ × ℚ

/-- `DecomposerBruteforceStrategy` from `src/decomposer_bruteforce.rs`. -/
inductive DecomposerBruteforceStrategy
  | FavorMix
  | FavorDominant

/-- `DecomposerBruteforce` from `src/decomposer_bruteforce.rs`. -/
structure DecomposerBruteforce where
  num_colors : ℕ
  tetras : List (TetrahedronProjector × List ℕ)
  faces : List (TriangleProjector × List ℕ)
  edges : List (LineProjector × List ℕ)

/-- `DecomposerBruteforce::new`, parametric over the three projector
constructors (the caller applies `?` to each, so all three are
`Option`-returning): one candidate per 4-, 3-, and 2-combination of palette
indices, failed constructions skipped, `none` iff no simplex of any kind
was built. -/
def DecomposerBruteforce.new
    (mkTetra : List Vec3 → Option TetrahedronProjector)
    (mkTri : List Vec3 → Option TriangleProjector)
    (mkLine : List Vec3 → Option LineProjector)
    (colors : List Vec3) : Option DecomposerBruteforce :=
  let num_colors := colors.length
  let tetras := (combinations 4 (List.range num_colors)).filterMap (fun vi =>
    (mkTetra (vi.map (fun i => colors.getD i (0, 0, 0)))).map (fun t => (t, vi)))
  let faces := (combinations 3 (List.range num_colors)).filterMap (fun vi =>
    (mkTri (vi.map (fun i => colors.getD i (0, 0, 0)))).map (fun t => (t, vi)))
  let edges := (combinations 2 (List.range num_colors)).filterMap (fun vi =>
    (mkLine (vi.map (fun i => colors.getD i (0, 0, 0)))).map (fun t => (t, vi)))
  if tetras.length > 0 ∨ faces.length > 0 ∨ edges.length > 0 then
    some ⟨num_colors, tetras, faces, edges⟩
  else none

/-- `to_global_barycentric_coordinates`: scatter local weights into a
palette-length zero vector at the tagged global indices. -/
def toGlobal (numColors : ℕ) (localBary : List ℚ) (vertexIndices : List ℕ) : List ℚ :=
  vertexIndices.enum.foldl
    (fun g p => if p.2 < numColors then g.set p.2 (localBary.getD p.1 0) else g)
    (List.replicate numColors 0)

/-- The covering tetrahedra of a query point: those whose projected weights
are all `≥ 0` (the `in_tetras` filter of `decompose`). -/
def coveringTetras (D : DecomposerBruteforce) (pt : Vec3) : List (List ℚ × List ℕ) :=
  D.tetras.filterMap (fun tv =>
    let p := tv.1.project pt
    if vecMin p < 0 then none else some (p, tv.2))

/-- The qualifying faces of a query point, with their squared plane distance
(the `on_faces` filter of `decompose`). -/
def qualFaces (D : DecomposerBruteforce) (pt : Vec3) : List (ℚ × List ℚ × List ℕ) :=
  D.faces.filterMap (fun fv =>
    let pd := fv.1.project pt
    if vecMin pd.1 < 0 then none
    else some (pd.2 * pd.2, pd.1, fv.2))

/-- Every edge's clamped projection and squared distance to the query point
(the `on_edges` map of `decompose`; note this is a `map`, not a filter). -/
def edgeCands (D : DecomposerBruteforce) (pt : Vec3) : List (ℚ × (ℚ × ℚ) × List ℕ) :=
  D.edges.map (fun ev =>
    let pr := (ev.1.clipping_project pt).1
    let pp := ev.1.bary_to_point pr
    (normSq (vsub pp pt), pr, ev.2))

/-- The `reduce` closure selecting among covering tetrahedra for a strategy. -/
def tetraChooser (strategy : DecomposerBruteforceStrategy) :
    (List ℚ × List ℕ) → (List ℚ × List ℕ) → (List ℚ × List ℕ) :=
  match strategy with
  | .FavorMix => fun a b => if vecMax b.1 < vecMax a.1 then b else a
  | .FavorDominant => fun a b => if vecMax b.1 > vecMax a.1 then b else a

/-- `DecomposerBruteforce::decompose`; the source's final `panic!()` branch is
modelled as `none`. -/
def DecomposerBruteforce.decompose (D : DecomposerBruteforce) (pt : Vec3)
    (strategy : DecomposerBruteforceStrategy) : Option (List ℚ) :=
  match reduceList (tetraChooser strategy) (coveringTetras D pt) with
  | some pv => some (toGlobal D.num_colors pv.1 pv.2)
  | none =>
    let closest_face := reduceList (fun a b => if b.1 < a.1 then b else a) (qualFaces D pt)
    let closest_edge := reduceList (fun a b => if b.1 < a.1 then b else a) (edgeCands D pt)
    match closest_face, closest_edge with
    | some f, some e =>
      if e.1 < f.1 then some (toGlobal D.num_colors [e.2.1.1, e.2.1.2] e.2.2)
      else some (toGlobal D.num_colors f.2.1 f.2.2)
    | some f, none => some (toGlobal D.num_colors f.2.1 f.2.2)
    | none, some e => some (toGlobal D.num_colors [e.2.1.1, e.2.1.2] e.2.2)
    | none, none => none

/-- `LineDistanceCalculator` from `src/decompose/octahedron.rs`. -/
structure LineDistanceCalculator where
  origin : Vec3
  direction : Vec3
  direction_len_sq : ℚ

/-- `LineDistanceCalculator::new`: fails on a zero-length direction. -/
def LineDistanceCalculator.new (origin target : Vec3) : Option LineDistanceCalculator :=
  let direction := vsub target origin
  let direction_len_sq := normSq direction
  if direction_len_sq = 0 then none
  else some ⟨origin, direction, direction_len_sq⟩

/-- `LineDistanceCalculator::distance_squared`. -/
def LineDistanceCalculator.distance_squared (l : LineDistanceCalculator) (pt : Vec3) : ℚ :=
  normSq (vcross l.direction (vsub l.origin pt)) / l.direction_len_sq

/-- `OctahedronDecomposerAxis` from `src/decompose/octahedron.rs`.  The
`projector` field stands for the owned `OctahedronProjector`
(`src/barycentric/octahedron.rs` is not under `src/`), abstracted —
modelled from the spec — to the interface its caller uses: local barycentric
6-vector plus an inside flag. -/
structure OctahedronDecomposerAxis where
  poles : ℕ × ℕ
  distance_calc : LineDistanceCalculator
  projector : Vec3 → (Fin 6 → ℚ) × Bool
  color_to_vertex_index : Fin 6 → Fin 6

/-- `OctahedronDecomposerAxis::project`: permute the projector's local
coordinates into global palette order; pass the inside flag through. -/
def OctahedronDecomposerAxis.project (a : OctahedronDecomposerAxis) (color : Vec3) :
    (Fin 6 → ℚ) × Bool :=
  let bl := a.projector color
  (fun row => bl.1 (a.color_to_vertex_index row), bl.2)

/-- `OctahedronDecomposer` from `src/decompose/octahedron.rs`: three candidate
axes. -/
structure OctahedronDecomposer where
  axis : Fin 3 → OctahedronDecomposerAxis

/-- `OctahedronDecomposerAxisStrategy`. -/
inductive OctahedronDecomposerAxisStrategy
  | Axis (k : ℕ)
  | Closest
  | Furthest
  | Average

/-- `OctahedronDecomposer::decompose`.  `Axis(k)` indexes
`self.axis[k % self.axis.len()]`; `Average` folds axes 1 and 2 onto axis 0's
result when axis 0 reports the point inside, incrementing the divisor each
time; `Closest`/`Furthest` reduce over axis distances with
`unwrap_or((axis[0], 0))`. -/
def OctahedronDecomposer.decompose (d : OctahedronDecomposer) (color : Vec3)
    (strategy : OctahedronDecomposerAxisStrategy) : Fin 6 → ℚ :=
  match strategy with
  | .Axis k =>
    let ax := d.axis ⟨k % 3, Nat.mod_lt k (by norm_num)⟩
    (ax.project color).1
  | .Average =>
    let pr := (d.axis 0).project color
    if pr.2 then
      let res := ([1, 2] : List (Fin 3)).foldl
        (fun (acc : (Fin 6 → ℚ) × ℚ) i =>
          (fun r => acc.1 r + ((d.axis i).project color).1 r, acc.2 + 1))
        (pr.1, (1 : ℚ))
      fun r => res.1 r / res.2
    else pr.1
  | .Closest =>
    match reduceList (fun a b => if b.2 < a.2 then b else a)
      (([0, 1, 2] : List (Fin 3)).map (fun i =>
        (d.axis i, (d.axis i).distance_calc.distance_squared color))) with
    | some ab => (ab.1.project color).1
    | none => ((d.axis 0).project color).1
  | .Furthest =>
    match reduceList (fun a b => if b.2 > a.2 then b else a)
      (([0, 1, 2] : List (Fin 3)).map (fun i =>
        (d.axis i, (d.axis i).distance_calc.distance_squared color))) with
    | some ab => (ab.1.project color).1
    | none => ((d.axis 0).project color).1

/-- A diffusion kernel (`DiffusionMatrix` trait): integer divisor and forward
targets `(dx, dy, weight)` with `dx : isize`, `dy weight : usize`. -/
structure DiffuseMatrix where
  divisor : ℕ
  targets : List (ℤ × ℕ × ℕ)

/-- `NoDiffuse` from `src/dither/diffusion_matrix.rs`. -/
def NoDiffuse : DiffuseMatrix := ⟨1, []⟩

/-- `FloydSteinberg` from `src/dither/diffusion_matrix.rs`. -/
def FloydSteinberg : DiffuseMatrix :=
  ⟨16, [(1, 0, 7), (-1, 1, 3), (0, 1, 5), (1, 1, 1)]⟩

/-- `JarvisJudiceAndNinke` from `src/dither/diffusion_matrix.rs`. -/
def JarvisJudiceAndNinke : DiffuseMatrix :=
  ⟨48, [(1, 0, 7), (2, 0, 5),
        (-2, 1, 3), (-1, 1, 5), (0, 1, 7), (1, 1, 5), (2, 1, 3),
        (-2, 2, 1), (-1, 2, 3), (0, 2, 5), (1, 2, 3), (2, 2, 1)]⟩

/-- `Atkinson` from `src/dither/diffusion_matrix.rs`. -/
def Atkinson : DiffuseMatrix :=
  ⟨8, [(1, 0, 1), (2, 0, 1), (-1, 1, 1), (0, 1, 1), (1, 1, 1), (0, 2, 1)]⟩

/-- `Sierra` from `src/dither/diffusion_matrix.rs`. -/
def Sierra : DiffuseMatrix :=
  ⟨32, [(1, 0, 5), (2, 0, 3),
        (-2, 1, 2), (-1, 1, 4), (0, 1, 5), (1, 1, 4), (2, 1, 2),
        (-1, 2, 2), (0, 2, 3), (1, 2, 2)]⟩

/-- The operations the engine needs on the quantization-error type
(`Default + AddAssign + Mul<usize> + Div<usize>`). -/
structure ErrOps (E : Type) where
  zero : E
  add : E → E → E
  mulNat : E → ℕ → E
  divNat : E → ℕ → E

/-- The abstract input image: size plus random-access pixel read
(`ImageSize + ImageReader`). -/
structure DiffuseImage (Src : Type) where
  width : ℕ
  height : ℕ
  get : ℕ → ℕ → Src

/-- `add_usize_usize_clamped` from `src/dither/diffuse.rs`. -/
def add_usize_usize_clamped (a b limit : ℕ) : Option ℕ :=
  if a < limit ∧ limit - a > b then some (a + b) else none

/-- `add_usize_isize_clamped` from `src/dither/diffuse.rs`. -/
def add_usize_isize_clamped (a : ℕ) (b : ℤ) (limit : ℕ) : Option ℕ :=
  if 0 < b then add_usize_usize_clamped a b.toNat limit
  else if b < 0 then
    let neg_b := (0 - b).toNat
    if a ≤ neg_b then none else some (a - neg_b)
  else if a < limit then some a else none

/-- The `RangeWithDir` iterator, reified as the list of indices it yields:
ascending from `mn` for positive `dir`, stepping down from `mx` for negative
`dir`, empty for `dir = 0`. -/
def rangeWithDir (mn mx : ℕ) (dir : ℤ) : List ℕ :=
  if h1 : 0 < dir then
    if h2 : mn < mx then mn :: rangeWithDir (mn + dir.toNat) mx dir else []
  else if h3 : dir < 0 then
    let neg_dir := (0 - dir).toNat
    if h4 : neg_dir ≤ mx - mn then (mx - neg_dir) :: rangeWithDir mn (mx - neg_dir) dir
    else []
  else []
termination_by mx - mn
decreasing_by
  · omega
  · omega

/-- The code's `max_y_diffuse`: `targets.iter().map(dy).min().unwrap_or(0)` —
note the source computes the MINIMUM of the vertical offsets. -/
def minDyOrZero (ts : List (ℤ × ℕ × ℕ)) : ℕ :=
  match ts.map (fun t => t.2.1) with
  | [] => 0
  | a :: r => r.foldl Nat.min a

/-- The spec's `maxVerticalKernelOffset`: the maximum `dy` over the kernel's
targets (claim-side definition, for comparison with the code's
`minDyOrZero`). -/
def maxDyOrZero (ts : List (ℤ × ℕ × ℕ)) : ℕ :=
  match ts.map (fun t => t.2.1) with
  | [] => 0
  | a :: r => r.foldl Nat.max a

/-- The code's `errors_height` (height of the rolling error buffer). -/
def errorsHeight (m : DiffuseMatrix) : ℕ := minDyOrZero m.targets + 1

/-- The engine state: the rolling error buffer and the ordered list of
`put_pixel` writes performed so far. -/
structure DiffuseState (E Tgt : Type) where
  errors : List E
  out : List ((ℕ × ℕ) × Tgt)

/-- The body of the per-pixel loop of `diffuse_dither`: take-and-reset the
accumulator, quantize with the divided error, write the output pixel, and
scatter `residual × weight` to each in-bounds kernel target (with `dx`
multiplied by the row direction). -/
def diffuseStep {Src E Tgt : Type} (ops : ErrOps E) (quantize : Src → E → Tgt × E)
    (m : DiffuseMatrix) (width height : ℕ) (get : ℕ → ℕ → Src) (dir : ℤ) (y : ℕ)
    (s : DiffuseState E Tgt) (x : ℕ) : DiffuseState E Tgt :=
  let eh := errorsHeight m
  let idx := x + (y % eh) * width
  let source := get x y
  let error := s.errors.getD idx ops.zero
  let errors1 := s.errors.set idx ops.zero
  let te := quantize source (ops.divNat error m.divisor)
  let out1 := s.out ++ [((x, y), te.1)]
  let errors2 := m.targets.foldl (fun es t =>
    match add_usize_isize_clamped x (t.1 * dir) width,
          add_usize_usize_clamped y t.2.1 height with
    | some tx, some ty =>
      let j := tx + (ty % eh) * width
      es.set j (ops.add (es.getD j ops.zero) (ops.mulNat te.2 t.2.2))
    | _, _ => es) errors1
  ⟨errors2, out1⟩

/-- The scan direction for a row: `-1` on odd rows when serpentine is enabled,
else `1`. -/
def rowDir (serpentine : Bool) (y : ℕ) : ℤ :=
  if serpentine ∧ y % 2 = 1 then -1 else 1

/-- `diffuse_dither` from `src/dither/diffuse.rs`: allocate the rolling buffer
of `width * errors_height` default accumulators, then scan rows top-to-bottom
and pixels along `RangeWithDir`. -/
def diffuse_dither {Src E Tgt : Type} (ops : ErrOps E) (quantize : Src → E → Tgt × E)
    (m : DiffuseMatrix) (img : DiffuseImage Src) (serpentine : Bool) :
    DiffuseState E Tgt :=
  let width := img.width
  let height := img.height
  let init : DiffuseState E Tgt :=
    ⟨List.replicate (width * errorsHeight m) ops.zero, []⟩
  (List.range height).foldl
    (fun s y =>
      (rangeWithDir 0 width (rowDir serpentine y)).foldl
        (diffuseStep ops quantize m width height img.get (rowDir serpentine y) y) s)
    init

/-- Look up the (first) write performed at pixel `(x, y)`. -/
def lookupOut {Tgt : Type} : List ((ℕ × ℕ) × Tgt) → ℕ → ℕ → Option Tgt
  | [], _, _ => none
  | (k, v) :: r, x, y => if k = (x, y) then some v else lookupOut r x y

/-- The pixel visitation order of a finished scan: the coordinates of the
`put_pixel` writes, in the order they happened. -/
def visitOrder {E Tgt : Type} (s : DiffuseState E Tgt) : List (ℕ × ℕ) :=
  s.out.map Prod.fst

/-! ## Helper lemmas -/

lemma reduceList_eq_none {α : Type} (f : α → α → α) (l : List α) :
    reduceList f l = none ↔ l = [] := by
  cases l <;> simp [reduceList]

lemma reduceList_cons {α : Type} (f : α → α → α) (a : α) (r : List α) :
    reduceList f (a :: r) = some (r.foldl f a) := rfl

lemma foldl_minBy {α : Type} (key : α → ℚ) (l : List α) (a : α) :
    (l.foldl (fun x y => if key y < key x then y else x) a) ∈ a :: l ∧
      ∀ x ∈ a :: l, key (l.foldl (fun x y => if key y < key x then y else x) a) ≤ key x := by
  induction l generalizing a with
  | nil => simp
  | cons b r ih =>
    have hstep : (if key b < key a then b else a) = b ∨
        (if key b < key a then b else a) = a := by
      by_cases h : key b < key a <;> simp [h]
    have hle_a : key (if key b < key a then b else a) ≤ key a := by
      by_cases h : key b < key a <;> simp [h, le_of_lt]
    have hle_b : key (if key b < key a then b else a) ≤ key b := by
      by_cases h : key b < key a <;> simp [h]
      exact le_of_not_lt h
    obtain ⟨hmem, hall⟩ := ih (if key b < key a then b else a)
    simp only [List.foldl_cons]
    constructor
    · rcases List.mem_cons.mp hmem with hm | hm
      · rcases hstep with hs | hs <;> rw [hm, hs] <;> simp
      · simp only [List.mem_cons] at hm ⊢
        tauto
    · intro x hx
      rcases List.mem_cons.mp hx with hx | hx
      · subst hx
        exact le_trans (hall _ (List.mem_cons_self _ _)) hle_a
      rcases List.mem_cons.mp hx with hx | hx
      · subst hx
        exact le_trans (hall _ (List.mem_cons_self _ _)) hle_b
      · exact hall x (List.mem_cons_of_mem _ hx)

lemma foldl_maxBy {α : Type} (key : α → ℚ) (l : List α) (a : α) :
    (l.foldl (fun x y => if key y > key x then y else x) a) ∈ a :: l ∧
      ∀ x ∈ a :: l, key x ≤ key (l.foldl (fun x y => if key y > key x then y else x) a) := by
  induction l generalizing a with
  | nil => simp
  | cons b r ih =>
    have hstep : (if key b > key a then b else a) = b ∨
        (if key b > key a then b else a) = a := by
      by_cases h : key b > key a <;> simp [h]
    have hle_a : key a ≤ key (if key b > key a then b else a) := by
      by_cases h : key b > key a <;> simp [h, le_of_lt]
    have hle_b : key b ≤ key (if key b > key a then b else a) := by
      by_cases h : key b > key a <;> simp [h]
      exact le_of_not_lt h
    obtain ⟨hmem, hall⟩ := ih (if key b > key a then b else a)
    simp only [List.foldl_cons]
    constructor
    · rcases List.mem_cons.mp hmem with hm | hm
      · rcases hstep with hs | hs <;> rw [hm, hs] <;> simp
      · simp only [List.mem_cons] at hm ⊢
        tauto
    · intro x hx
      rcases List.mem_cons.mp hx with hx | hx
      · subst hx
        exact le_trans hle_a (hall _ (List.mem_cons_self _ _))
      rcases List.mem_cons.mp hx with hx | hx
      · subst hx
        exact le_trans hle_b (hall _ (List.mem_cons_self _ _))
      · exact hall x (List.mem_cons_of_mem _ hx)

lemma reduceList_minBy {α : Type} (key : α → ℚ) (l : List α) (h : l ≠ []) :
    ∃ res, reduceList (fun x y => if key y < key x then y else x) l = some res ∧
      res ∈ l ∧ ∀ x ∈ l, key res ≤ key x := by
  cases l with
  | nil => exact absurd rfl h
  | cons a r =>
    obtain ⟨hmem, hall⟩ := foldl_minBy key r a
    exact ⟨_, rfl, hmem, hall⟩

lemma reduceList_maxBy {α : Type} (key : α → ℚ) (l : List α) (h : l ≠ []) :
    ∃ res, reduceList (fun x y => if key y > key x then y else x) l = some res ∧
      res ∈ l ∧ ∀ x ∈ l, key x ≤ key res := by
  cases l with
  | nil => exact absurd rfl h
  | cons a r =>
    obtain ⟨hmem, hall⟩ := foldl_maxBy key r a
    exact ⟨_, rfl, hmem, hall⟩

lemma getD_set_ne (l : List ℚ) (j i : ℕ) (v : ℚ) (h : i ≠ j) :
    (l.set j v).getD i 0 = l.getD i 0 := by
  simp [List.getD_eq_getElem?_getD, List.getElem?_set_ne (Ne.symm h)]

lemma getD_replicate {α : Type} (n i : ℕ) (z : α) :
    (List.replicate n z).getD i z = z := by
  induction n generalizing i with
  | zero => simp
  | succ n ih =>
    cases i with
    | zero => simp [List.replicate_succ]
    | succ i => simp only [List.replicate_succ, List.getD_cons_succ]; exact ih i

lemma set_replicate_self {α : Type} (n i : ℕ) (z : α) :
    (List.replicate n z).set i z = List.replicate n z := by
  induction n generalizing i with
  | zero => simp
  | succ n ih =>
    cases i with
    | zero => simp [List.replicate_succ]
    | succ i => simp [List.replicate_succ, ih i]

lemma toGlobal_getD_of_not_mem (n : ℕ) (lb : List ℚ) (vi : List ℕ) (i : ℕ)
    (hi : i ∉ vi) : (toGlobal n lb vi).getD i 0 = 0 := by
  have main : ∀ (ps : List (ℕ × ℕ)) (g : List ℚ), (∀ p ∈ ps, p.2 ∈ vi) →
      g.getD i 0 = 0 →
      (ps.foldl (fun g p => if p.2 < n then g.set p.2 (lb.getD p.1 0) else g) g).getD i 0 = 0 := by
    intro ps
    induction ps with
    | nil => intro g _ hg; simpa using hg
    | cons p r ih =>
      intro g hmem hg
      simp only [List.foldl_cons]
      refine ih _ (fun q hq => hmem q (List.mem_cons_of_mem _ hq)) ?_
      have hne : i ≠ p.2 := fun he => hi (he ▸ hmem p (List.mem_cons_self _ _))
      by_cases hlt : p.2 < n
      · rw [if_pos hlt, getD_set_ne _ _ _ _ hne]
        exact hg
      · rw [if_neg hlt]
        exact hg
  refine main vi.enum (List.replicate n 0) ?_ ?_
  · intro p hp
    obtain ⟨hlen, hval⟩ := List.mem_enum (x := p.2) (i := p.1) (by simpa using hp)
    exact hval ▸ List.getElem_mem hlen
  · exact getD_replicate n i 0

lemma rangeWithDir_pos_step (mn mx : ℕ) (h : mn < mx) :
    rangeWithDir mn mx 1 = mn :: rangeWithDir (mn + 1) mx 1 := by
  rw [rangeWithDir]
  norm_num [h]

lemma rangeWithDir_pos_stop (mn mx : ℕ) (h : ¬ mn < mx) :
    rangeWithDir mn mx 1 = [] := by
  rw [rangeWithDir]
  norm_num [h]

lemma rangeWithDir_neg_step (mn mx : ℕ) (h : 1 ≤ mx - mn) :
    rangeWithDir mn mx (-1) = (mx - 1) :: rangeWithDir mn (mx - 1) (-1) := by
  rw [rangeWithDir]
  norm_num [h]

lemma rangeWithDir_neg_stop (mn mx : ℕ) (h : ¬ 1 ≤ mx - mn) :
    rangeWithDir mn mx (-1) = [] := by
  rw [rangeWithDir]
  norm_num [h]

lemma rangeWithDir_one (mn mx : ℕ) : rangeWithDir mn mx 1 = List.range' mn (mx - mn) := by
  have main : ∀ (k mn : ℕ), mx - mn = k → rangeWithDir mn mx 1 = List.range' mn k := by
    intro k
    induction k with
    | zero =>
      intro mn hk
      rw [rangeWithDir_pos_stop mn mx (by omega)]
      simp
    | succ k ih =>
      intro mn hk
      rw [rangeWithDir_pos_step mn mx (by omega), List.range'_succ, ih (mn + 1) (by omega)]
  exact main (mx - mn) mn rfl

lemma rangeWithDir_neg_one (mn mx : ℕ) :
    rangeWithDir mn mx (-1) = (List.range' mn (mx - mn)).reverse := by
  have main : ∀ (k mx : ℕ), mx - mn = k →
      rangeWithDir mn mx (-1) = (List.range' mn k).reverse := by
    intro k
    induction k with
    | zero =>
      intro mx hk
      rw [rangeWithDir_neg_stop mn mx (by omega)]
      simp
    | succ k ih =>
      intro mx hk
      rw [rangeWithDir_neg_step mn mx (by omega), ih (mx - 1) (by omega)]
      rw [List.range'_concat]
      simp only [List.reverse_append, List.reverse_cons, List.reverse_nil, List.nil_append,
        List.singleton_append]
      congr 1
      omega
  exact main (mx - mn) mx rfl

lemma rangeWithDir_zero_w (w : ℕ) : rangeWithDir 0 w 1 = List.range w := by
  rw [rangeWithDir_one, List.range_eq_range', Nat.sub_zero]

lemma rangeWithDir_zero_w_neg (w : ℕ) : rangeWithDir 0 w (-1) = (List.range w).reverse := by
  rw [rangeWithDir_neg_one, List.range_eq_range', Nat.sub_zero]

lemma diffuseStep_out {Src E Tgt : Type} (ops : ErrOps E) (quantize : Src → E → Tgt × E)
    (m : DiffuseMatrix) (width height : ℕ) (get : ℕ → ℕ → Src) (dir : ℤ) (y : ℕ)
    (s : DiffuseState E Tgt) (x : ℕ) :
    (diffuseStep ops quantize m width height get dir y s x).out =
      s.out ++ [((x, y),
        (quantize (get x y)
          (ops.divNat (s.errors.getD (x + (y % errorsHeight m) * width) ops.zero)
            m.divisor)).1)] := rfl

lemma foldl_row_visit {Src E Tgt : Type} (ops : ErrOps E) (quantize : Src → E → Tgt × E)
    (m : DiffuseMatrix) (width height : ℕ) (get : ℕ → ℕ → Src) (dir : ℤ) (y : ℕ)
    (xs : List ℕ) (s : DiffuseState E Tgt) :
    ((xs.foldl (diffuseStep ops quantize m width height get dir y) s).out.map Prod.fst) =
      s.out.map Prod.fst ++ xs.map (fun x => (x, y)) := by
  induction xs generalizing s with
  | nil => simp
  | cons x xs ih =>
    simp only [List.foldl_cons, List.map_cons]
    rw [ih, diffuseStep_out]
    simp

lemma foldl_rows_visit {Src E Tgt : Type} (ops : ErrOps E) (quantize : Src → E → Tgt × E)
    (m : DiffuseMatrix) (width height : ℕ) (get : ℕ → ℕ → Src) (serpentine : Bool)
    (ys : List ℕ) (s : DiffuseState E Tgt) :
    ((ys.foldl (fun s y =>
        (rangeWithDir 0 width (rowDir serpentine y)).foldl
          (diffuseStep ops quantize m width height get (rowDir serpentine y) y) s) s).out.map
        Prod.fst) =
      s.out.map Prod.fst ++
        ys.flatMap (fun y => (rangeWithDir 0 width (rowDir serpentine y)).map (fun x => (x, y))) := by
  induction ys generalizing s with
  | nil => simp
  | cons y ys ih =>
    simp only [List.foldl_cons, List.flatMap_cons]
    rw [ih, foldl_row_visit]
    simp

lemma foldl_preserves_errors_length {E Tgt S : Type}
    (f : DiffuseState E Tgt → S → DiffuseState E Tgt) (l : List S)
    (hf : ∀ s x, (f s x).errors.length = s.errors.length) :
    ∀ s : DiffuseState E Tgt, (l.foldl f s).errors.length = s.errors.length := by
  induction l with
  | nil => intro s; rfl
  | cons a r ih => intro s; rw [List.foldl_cons, ih, hf]

lemma diffuseStep_errors_length {Src E Tgt : Type} (ops : ErrOps E)
    (quantize : Src → E → Tgt × E) (m : DiffuseMatrix) (width height : ℕ)
    (get : ℕ → ℕ → Src) (dir : ℤ) (y : ℕ) (s : DiffuseState E Tgt) (x : ℕ) :
    (diffuseStep ops quantize m width height get dir y s x).errors.length =
      s.errors.length := by
  have htargets : ∀ (ts : List (ℤ × ℕ × ℕ)) (es : List E),
      (ts.foldl (fun es t =>
        match add_usize_isize_clamped x (t.1 * dir) width,
              add_usize_usize_clamped y t.2.1 height with
        | some tx, some ty =>
          let j := tx + (ty % errorsHeight m) * width
          es.set j (ops.add (es.getD j ops.zero)
            (ops.mulNat (quantize (get x y)
              (ops.divNat (s.errors.getD (x + (y % errorsHeight m) * width) ops.zero)
                m.divisor)).2 t.2.2))
        | _, _ => es) es).length = es.length := by
    intro ts
    induction ts with
    | nil => intro es; rfl
    | cons t r ih =>
      intro es
      rw [List.foldl_cons, ih]
      cases add_usize_isize_clamped x (t.1 * dir) width <;>
        cases add_usize_usize_clamped y t.2.1 height <;> simp
  simp only [diffuseStep]
  rw [htargets, List.length_set]

lemma diffuse_dither_errors_length {Src E Tgt : Type} (ops : ErrOps E)
    (quantize : Src → E → Tgt × E) (m : DiffuseMatrix) (img : DiffuseImage Src)
    (serpentine : Bool) :
    (diffuse_dither ops quantize m img serpentine).errors.length =
      img.width * errorsHeight m := by
  unfold diffuse_dither
  rw [foldl_preserves_errors_length]
  · simp
  · intro s y
    rw [foldl_preserves_errors_length]
    intro s' x
    exact diffuseStep_errors_length ops quantize m img.width img.height img.get _ y s' x

lemma lookupOut_map_self {Tgt : Type} (g : ℕ × ℕ → Tgt) :
    ∀ (l : List (ℕ × ℕ)) (x y : ℕ), (x, y) ∈ l →
      lookupOut (l.map (fun k => (k, g k))) x y = some (g (x, y)) := by
  intro l
  induction l with
  | nil => intro x y h; simp at h
  | cons k r ih =>
    intro x y h
    by_cases hk : k = (x, y)
    · subst hk
      simp [lookupOut]
    · rcases List.mem_cons.mp h with h | h
      · exact absurd h.symm hk
      · simp only [List.map_cons, lookupOut, if_neg hk]
        exact ih x y h

lemma noDiffuse_step {Src E Tgt : Type} (ops : ErrOps E) (quantize : Src → E → Tgt × E)
    (w h N : ℕ) (get : ℕ → ℕ → Src) (dir : ℤ) (y : ℕ) (s : DiffuseState E Tgt) (x : ℕ)
    (hs : s.errors = List.replicate N ops.zero) :
    diffuseStep ops quantize NoDiffuse w h get dir y s x =
      ⟨List.replicate N ops.zero,
        s.out ++ [((x, y), (quantize (get x y) (ops.divNat ops.zero 1)).1)]⟩ := by
  simp only [diffuseStep, NoDiffuse, List.foldl_nil, hs, getD_replicate,
    set_replicate_self]

lemma noDiffuse_row {Src E Tgt : Type} (ops : ErrOps E) (quantize : Src → E → Tgt × E)
    (w h N : ℕ) (get : ℕ → ℕ → Src) (dir : ℤ) (y : ℕ) :
    ∀ (xs : List ℕ) (s : DiffuseState E Tgt), s.errors = List.replicate N ops.zero →
      xs.foldl (diffuseStep ops quantize NoDiffuse w h get dir y) s =
        ⟨List.replicate N ops.zero,
          s.out ++ xs.map (fun x => ((x, y), (quantize (get x y) (ops.divNat ops.zero 1)).1))⟩ := by
  intro xs
  induction xs with
  | nil =>
    intro s hs
    cases s
    simp_all
  | cons x r ih =>
    intro s hs
    rw [List.foldl_cons, noDiffuse_step ops quantize w h N get dir y s x hs,
      ih _ (by rfl)]
    simp

lemma noDiffuse_rows {Src E Tgt : Type} (ops : ErrOps E) (quantize : Src → E → Tgt × E)
    (w h N : ℕ) (get : ℕ → ℕ → Src) (serpentine : Bool) :
    ∀ (ys : List ℕ) (s : DiffuseState E Tgt), s.errors = List.replicate N ops.zero →
      ys.foldl (fun s y =>
          (rangeWithDir 0 w (rowDir serpentine y)).foldl
            (diffuseStep ops quantize NoDiffuse w h get (rowDir serpentine y) y) s) s =
        ⟨List.replicate N ops.zero,
          s.out ++ ys.flatMap (fun y => (rangeWithDir 0 w (rowDir serpentine y)).map
            (fun x => ((x, y), (quantize (get x y) (ops.divNat ops.zero 1)).1)))⟩ := by
  intro ys
  induction ys with
  | nil =>
    intro s hs
    cases s
    simp_all
  | cons y r ih =>
    intro s hs
    rw [List.foldl_cons,
      noDiffuse_row ops quantize w h N get (rowDir serpentine y) y _ s hs, ih _ (by rfl)]
    simp

lemma mem_scanList (w h x y : ℕ) (serp : Bool) (hx : x < w) (hy : y < h) :
    (x, y) ∈ (List.range h).flatMap
      (fun y => (rangeWithDir 0 w (rowDir serp y)).map (fun x => (x, y))) := by
  rw [List.mem_flatMap]
  refine ⟨y, List.mem_range.mpr hy, ?_⟩
  rw [List.mem_map]
  refine ⟨x, ?_, rfl⟩
  by_cases hcond : serp = true ∧ y % 2 = 1
  · rw [show rowDir serp y = -1 by simp [rowDir, hcond]]
    rw [rangeWithDir_zero_w_neg, List.mem_reverse]
    exact List.mem_range.mpr hx
  · rw [show rowDir serp y = 1 from by unfold rowDir; exact if_neg hcond]
    rw [rangeWithDir_zero_w]
    exact List.mem_range.mpr hx

/-- A kernel with every horizontal offset sign-flipped (the spec's description
of how serpentine rows apply the kernel). -/
def negDx (m : DiffuseMatrix) : DiffuseMatrix :=
  ⟨m.divisor, m.targets.map (fun t => (-t.1, t.2.1, t.2.2))⟩

lemma errorsHeight_negDx (m : DiffuseMatrix) : errorsHeight (negDx m) = errorsHeight m := by
  have hmap : (m.targets.map (fun t => (-t.1, t.2.1, t.2.2))).map
      (fun t : ℤ × ℕ × ℕ => t.2.1) = m.targets.map (fun t => t.2.1) := by
    rw [List.map_map]
    rfl
  simp only [errorsHeight, negDx, minDyOrZero, hmap]

lemma diffuseStep_negDx {Src E Tgt : Type} (ops : ErrOps E) (quantize : Src → E → Tgt × E)
    (m : DiffuseMatrix) (w h : ℕ) (get : ℕ → ℕ → Src) (y : ℕ)
    (s : DiffuseState E Tgt) (x : ℕ) :
    diffuseStep ops quantize m w h get (-1) y s x =
      diffuseStep ops quantize (negDx m) w h get 1 y s x := by
  have hdivisor : (negDx m).divisor = m.divisor := rfl
  have harg : ∀ t : ℤ, t * -1 = -t * 1 := by intro t; ring
  simp only [diffuseStep, errorsHeight_negDx, hdivisor]
  rw [show (negDx m).targets = m.targets.map (fun t => (-t.1, t.2.1, t.2.2)) from rfl]
  rw [List.foldl_map]
  simp only [harg]

lemma reduceList_chooser_mix (l : List (List ℚ × List ℕ)) (h : l ≠ []) :
    ∃ res, reduceList (tetraChooser .FavorMix) l = some res ∧ res ∈ l ∧
      ∀ x ∈ l, vecMax res.1 ≤ vecMax x.1 := by
  obtain ⟨res, h1, h2, h3⟩ := reduceList_minBy (fun p : List ℚ × List ℕ => vecMax p.1) l h
  refine ⟨res, ?_, h2, h3⟩
  have hfun : tetraChooser .FavorMix =
      (fun x y : List ℚ × List ℕ =>
        if (fun p : List ℚ × List ℕ => vecMax p.1) y < (fun p : List ℚ × List ℕ => vecMax p.1) x
        then y else x) := rfl
  rw [hfun]
  exact h1

lemma reduceList_chooser_dominant (l : List (List ℚ × List ℕ)) (h : l ≠ []) :
    ∃ res, reduceList (tetraChooser .FavorDominant) l = some res ∧ res ∈ l ∧
      ∀ x ∈ l, vecMax x.1 ≤ vecMax res.1 := by
  obtain ⟨res, h1, h2, h3⟩ := reduceList_maxBy (fun p : List ℚ × List ℕ => vecMax p.1) l h
  refine ⟨res, ?_, h2, h3⟩
  have hfun : tetraChooser .FavorDominant =
      (fun x y : List ℚ × List ℕ =>
        if (fun p : List ℚ × List ℕ => vecMax p.1) y > (fun p : List ℚ × List ℕ => vecMax p.1) x
        then y else x) := rfl
  rw [hfun]
  exact h1

/-! ## Claim theorems -/

/-- C1: `diffuse_dither`'s rolling error buffer has `width * errorsHeight`
cells, but `errorsHeight` is `1 + MINIMUM dy` (the source applies `.min()`
where its own comment says "Find maximum y diffuse"): for Floyd–Steinberg the
buffer is `width × 1`, not the claimed `width × (1 + maxVerticalKernelOffset)
= width × 2`. -/
theorem rolling_buffer_uses_min_dy {Src E Tgt : Type} (ops : ErrOps E)
    (quantize : Src → E → Tgt × E) (img : DiffuseImage Src) (serp : Bool) :
    (diffuse_dither ops quantize FloydSteinberg img serp).errors.length
        = img.width * errorsHeight FloydSteinberg
      ∧ errorsHeight FloydSteinberg = 1
      ∧ maxDyOrZero FloydSteinberg.targets = 1 := by
  refine ⟨diffuse_dither_errors_length ops quantize FloydSteinberg img serp, ?_, ?_⟩ <;> rfl

/-- C2: the code's `interleaved_gradient_noise` multiplies by `52.983917`,
while the claimed formula (and the source's own comment) uses `52.9829189`;
at `(x, y) = (1, 0)` the two disagree. -/
theorem noise_constant_mismatch :
    interleaved_gradient_noise 1 0 ≠ ignSpecFormula 1 0 := by
  norm_num [interleaved_gradient_noise, ignSpecFormula, rustFract, rustTrunc]

/-- C3 counterexample: `LineProjector::new` on two coincident points does NOT
return an absence value — it succeeds, returning a concrete projector (with
`length_squared = 0`) that still answers projection queries. -/
theorem line_new_succeeds_on_coincident :
    LineProjector.new (0, 0, 0) (0, 0, 0) = ⟨(0, 0, 0), (0, 0, 0), 0⟩ ∧
    (LineProjector.new (0, 0, 0) (0, 0, 0)).project (5, 7, 9) = (1, 0) := by
  constructor
  · simp [LineProjector.new, vsub, normSq, vdot]
  · simp [LineProjector.project, LineProjector.new, vsub, normSq, vdot]

/-- C3 (amended): `LineProjector::new` is infallible — it is a total function
returning a projector for every vertex pair; coincident vertices yield
`length_squared = 0`, and any projector with `length_squared = 0` answers
`[1, 0]` to every projection query (degeneracy handled at query time, not at
construction time). -/
theorem line_constructor_infallible (a b pt : Vec3) :
    ((LineProjector.new a b).length_squared = 0 →
      (LineProjector.new a b).project pt = (1, 0)) ∧
    (LineProjector.new a a).length_squared = 0 := by
  constructor
  · intro h
    unfold LineProjector.project
    rw [if_pos h]
  · simp [LineProjector.new, vsub, normSq, vdot]

theorem line_constructor_infallible_witness :
    (LineProjector.new ((0 : ℚ), (0 : ℚ), (0 : ℚ)) (0, 0, 0)).length_squared = 0 ∧
    (LineProjector.new ((0 : ℚ), (0 : ℚ), (0 : ℚ)) (0, 0, 0)).project (1, 2, 3) = (1, 0) :=
  ⟨by simp [LineProjector.new, vsub, normSq, vdot],
   (line_constructor_infallible (0, 0, 0) (0, 0, 0) (1, 2, 3)).1
     (by simp [LineProjector.new, vsub, normSq, vdot])⟩

/-- C5: under the `Average` strategy the octahedron decomposer projects on
axis 0; if axis 0 reports the point inside, it adds the projections of axes 1
and 2 (their inside flags unchecked) and divides by 3; otherwise it returns
axis 0's raw projection unmodified. -/
theorem octahedron_average_strategy (d : OctahedronDecomposer) (c : Vec3) :
    d.decompose c .Average =
      if ((d.axis 0).project c).2 then
        (fun r => (((d.axis 0).project c).1 r + ((d.axis 1).project c).1 r
          + ((d.axis 2).project c).1 r) / 3)
      else ((d.axis 0).project c).1 := by
  unfold OctahedronDecomposer.decompose
  by_cases h : ((d.axis 0).project c).2 <;> simp [h]
  funext r
  norm_num

/-- C10: the `Axis(k)` strategy is total in `k` — the axis index is reduced
modulo the number of axes (3), so any out-of-range `k` silently wraps around
to axis `k % 3` instead of failing. -/
theorem octahedron_axis_strategy_wraps (d : OctahedronDecomposer) (c : Vec3) (k : ℕ) :
    d.decompose c (.Axis k)
        = ((d.axis ⟨k % 3, Nat.mod_lt k (by norm_num)⟩).project c).1 ∧
      d.decompose c (.Axis k) = d.decompose c (.Axis (k % 3)) := by
  constructor
  · rfl
  · have hfin : (⟨k % 3 % 3, Nat.mod_lt (k % 3) (by norm_num)⟩ : Fin 3)
        = ⟨k % 3, Nat.mod_lt k (by norm_num)⟩ :=
      Fin.ext (show k % 3 % 3 = k % 3 by omega)
    show ((d.axis ⟨k % 3, Nat.mod_lt k (by norm_num)⟩).project c).1
        = ((d.axis ⟨k % 3 % 3, Nat.mod_lt (k % 3) (by norm_num)⟩).project c).1
    rw [hfin]

lemma mem_filterMap_construct {β : Type} (mk : List Vec3 → Option β)
    (pts : List ℕ → List Vec3) (combos : List (List ℕ)) (t : β) (vi : List ℕ) :
    (t, vi) ∈ combos.filterMap (fun vi' => (mk (pts vi')).map (fun t' => (t', vi'))) ↔
      vi ∈ combos ∧ mk (pts vi) = some t := by
  simp only [List.mem_filterMap, Option.map_eq_some']
  constructor
  · rintro ⟨vi', hmem, a, hmk, heq⟩
    injection heq with h1 h2
    subst h1
    subst h2
    exact ⟨hmem, hmk⟩
  · rintro ⟨hmem, hmk⟩
    exact ⟨vi, hmem, t, hmk, rfl⟩

lemma mem_combinations_iff {α : Type} :
    ∀ (l : List α) (k : ℕ) (zs : List α),
      zs ∈ combinations k l ↔ zs.length = k ∧ zs.Sublist l := by
  intro l
  induction l with
  | nil =>
    intro k zs
    cases k with
    | zero =>
      simp only [combinations, List.mem_singleton, List.sublist_nil]
      constructor
      · rintro rfl
        exact ⟨rfl, rfl⟩
      · rintro ⟨_, rfl⟩
        rfl
    | succ k =>
      simp only [combinations, List.not_mem_nil, false_iff, List.sublist_nil]
      rintro ⟨h1, rfl⟩
      simp at h1
  | cons x xs' ih =>
    intro k zs
    cases k with
    | zero =>
      simp only [combinations, List.mem_singleton]
      constructor
      · rintro rfl
        exact ⟨rfl, List.nil_sublist _⟩
      · rintro ⟨h1, _⟩
        exact List.length_eq_zero.mp h1
    | succ k =>
      simp only [combinations, List.mem_append, List.mem_map]
      constructor
      · rintro (⟨c, hc, rfl⟩ | h)
        · obtain ⟨hlen, hsub⟩ := (ih k c).mp hc
          exact ⟨by simp [hlen], List.Sublist.cons₂ x hsub⟩
        · obtain ⟨hlen, hsub⟩ := (ih (k + 1) zs).mp h
          exact ⟨hlen, hsub.cons x⟩
      · rintro ⟨hlen, hsub⟩
        rcases List.sublist_cons_iff.mp hsub with h | ⟨r, rfl, hr⟩
        · exact Or.inr ((ih (k + 1) zs).mpr ⟨hlen, h⟩)
        · left
          refine ⟨r, (ih k r).mpr ⟨?_, hr⟩, rfl⟩
          simpa using hlen

lemma pair_sublist_range (i j n : ℕ) (hij : i < j) (hjn : j < n) :
    [i, j].Sublist (List.range n) := by
  induction n with
  | zero => omega
  | succ n ihn =>
    rw [List.range_succ]
    by_cases hj : j < n
    · exact (ihn hj).trans (List.sublist_append_left _ _)
    · have hjn' : j = n := by omega
      subst hjn'
      have h1 : [i].Sublist (List.range j) :=
        List.singleton_sublist.mpr (List.mem_range.mpr hij)
      exact h1.append (List.Sublist.refl [j])

lemma normSq_vsub_eq_zero_iff (a b : Vec3) : normSq (vsub b a) = 0 ↔ a = b := by
  obtain ⟨a1, a2, a3⟩ := a
  obtain ⟨b1, b2, b3⟩ := b
  unfold normSq vsub vdot
  simp only [Prod.mk.injEq]
  constructor
  · intro h
    have h1 : (b1 - a1) * (b1 - a1) = 0 := by
      nlinarith [mul_self_nonneg (b1 - a1), mul_self_nonneg (b2 - a2),
        mul_self_nonneg (b3 - a3)]
    have h2 : (b2 - a2) * (b2 - a2) = 0 := by
      nlinarith [mul_self_nonneg (b1 - a1), mul_self_nonneg (b2 - a2),
        mul_self_nonneg (b3 - a3)]
    have h3 : (b3 - a3) * (b3 - a3) = 0 := by
      nlinarith [mul_self_nonneg (b1 - a1), mul_self_nonneg (b2 - a2),
        mul_self_nonneg (b3 - a3)]
    have e1 := mul_self_eq_zero.mp h1
    have e2 := mul_self_eq_zero.mp h2
    have e3 := mul_self_eq_zero.mp h3
    refine ⟨by linarith, by linarith, by linarith⟩
  · rintro ⟨rfl, rfl, rfl⟩
    ring

/-- Modelled from the spec: the fallible line-projector constructor that
`DecomposerBruteforce::new` calls with `?` (the `src/barycentric/line.rs`
under `src/` holds an infallible historical variant; the spec says line
construction fails exactly on coincident points): `none` iff the two vertices
coincide. -/
def mkLineSpec (pts : List Vec3) : Option LineProjector :=
  let a := pts.getD 0 (0, 0, 0)
  let b := pts.getD 1 (0, 0, 0)
  if normSq (vsub b a) = 0 then none else some (LineProjector.new a b)

lemma new_some_edges (mkT : List Vec3 → Option TetrahedronProjector)
    (mkF : List Vec3 → Option TriangleProjector)
    (mkL : List Vec3 → Option LineProjector) (colors : List Vec3)
    (D : DecomposerBruteforce)
    (h : DecomposerBruteforce.new mkT mkF mkL colors = some D) :
    D.edges = (combinations 2 (List.range colors.length)).filterMap (fun vi =>
      (mkL (vi.map (fun i => colors.getD i (0, 0, 0)))).map (fun t => (t, vi))) := by
  simp only [DecomposerBruteforce.new] at h
  split at h
  · injection h with h'
    subst h'
    rfl
  · exact Option.noConfusion h

/-- C4: the final `panic!()` of `DecomposerBruteforce::decompose` (modelled as
`none`) is unreachable whenever the edge list is non-empty; it is reached only
when no covering tetrahedron, no qualifying face and no edge exist, and in
that case the function signals the defect (`none`) instead of returning a
weight vector.  The last conjunct shows the edge list IS non-empty for any
palette with two distinct points, for a construction using the (spec-modelled)
fallible line constructor. -/
theorem bruteforce_panic_unreachable (D : DecomposerBruteforce) (pt : Vec3)
    (strat : DecomposerBruteforceStrategy) :
    (D.edges ≠ [] → (D.decompose pt strat).isSome = true) ∧
    (D.decompose pt strat = none → qualFaces D pt = [] ∧ D.edges = []) ∧
    (coveringTetras D pt = [] → qualFaces D pt = [] → D.edges = [] →
      D.decompose pt strat = none) ∧
    (∀ (mkT : List Vec3 → Option TetrahedronProjector)
       (mkF : List Vec3 → Option TriangleProjector) (colors : List Vec3)
       (D' : DecomposerBruteforce),
      DecomposerBruteforce.new mkT mkF mkLineSpec colors = some D' →
      (∃ i j, i < j ∧ j < colors.length ∧
        colors.getD i (0, 0, 0) ≠ colors.getD j (0, 0, 0)) →
      D'.edges ≠ []) := by
  have hdistinct : ∀ (mkT : List Vec3 → Option TetrahedronProjector)
      (mkF : List Vec3 → Option TriangleProjector) (colors : List Vec3)
      (D' : DecomposerBruteforce),
      DecomposerBruteforce.new mkT mkF mkLineSpec colors = some D' →
      (∃ i j, i < j ∧ j < colors.length ∧
        colors.getD i (0, 0, 0) ≠ colors.getD j (0, 0, 0)) →
      D'.edges ≠ [] := by
    rintro mkT mkF colors D' hnew ⟨i, j, hij, hjn, hne⟩
    have hmem_combo : [i, j] ∈ combinations 2 (List.range colors.length) :=
      (mem_combinations_iff (List.range colors.length) 2 [i, j]).mpr
        ⟨rfl, pair_sublist_range i j _ hij hjn⟩
    have hmk : mkLineSpec ([i, j].map (fun idx => colors.getD idx (0, 0, 0)))
        = some (LineProjector.new (colors.getD i (0, 0, 0))
            (colors.getD j (0, 0, 0))) := by
      unfold mkLineSpec
      simp only [List.map_cons, List.map_nil, List.getD_cons_zero, List.getD_cons_succ]
      exact if_neg (fun h => hne ((normSq_vsub_eq_zero_iff _ _).mp h))
    have hmem : (LineProjector.new (colors.getD i (0, 0, 0))
        (colors.getD j (0, 0, 0)), [i, j]) ∈ D'.edges := by
      rw [new_some_edges mkT mkF mkLineSpec colors D' hnew]
      exact (mem_filterMap_construct mkLineSpec
        (fun vi => vi.map (fun idx => colors.getD idx (0, 0, 0))) _ _ _).mpr
        ⟨hmem_combo, hmk⟩
    exact List.ne_nil_of_mem hmem
  refine ?_
  have main : (D.edges ≠ [] → (D.decompose pt strat).isSome = true) ∧
      (D.decompose pt strat = none → qualFaces D pt = [] ∧ D.edges = []) ∧
      (coveringTetras D pt = [] → qualFaces D pt = [] → D.edges = [] →
        D.decompose pt strat = none) := by
    cases hcov : reduceList (tetraChooser strat) (coveringTetras D pt) with
    | some pv =>
      refine ⟨fun _ => ?_, fun hnone => ?_, fun hc _ _ => ?_⟩
      · simp [DecomposerBruteforce.decompose, hcov]
      · simp [DecomposerBruteforce.decompose, hcov] at hnone
      · rw [hc] at hcov
        simp [reduceList] at hcov
    | none =>
      cases hface : reduceList (fun a b => if b.1 < a.1 then b else a) (qualFaces D pt) with
      | some f =>
        refine ⟨fun _ => ?_, fun hnone => ?_, fun _ hf _ => ?_⟩
        · cases hedge : reduceList (fun a b => if b.1 < a.1 then b else a) (edgeCands D pt) with
          | some e =>
            simp only [DecomposerBruteforce.decompose, hcov, hface, hedge]
            split <;> simp
          | none => simp [DecomposerBruteforce.decompose, hcov, hface, hedge]
        · cases hedge : reduceList (fun a b => if b.1 < a.1 then b else a) (edgeCands D pt) with
          | some e =>
            simp only [DecomposerBruteforce.decompose, hcov, hface, hedge] at hnone
            split at hnone <;> simp at hnone
          | none => simp [DecomposerBruteforce.decompose, hcov, hface, hedge] at hnone
        · rw [hf] at hface
          simp [reduceList] at hface
      | none =>
        cases hedge : reduceList (fun a b => if b.1 < a.1 then b else a) (edgeCands D pt) with
        | some e =>
          refine ⟨fun _ => ?_, fun hnone => ?_, fun _ _ he => ?_⟩
          · simp [DecomposerBruteforce.decompose, hcov, hface, hedge]
          · simp [DecomposerBruteforce.decompose, hcov, hface, hedge] at hnone
          · rw [show edgeCands D pt = [] from by rw [edgeCands, he]; rfl] at hedge
            simp [reduceList] at hedge
        | none =>
          have hedges_nil : D.edges = [] := by
            have h1 : edgeCands D pt = [] := (reduceList_eq_none _ _).mp hedge
            have h2 := congrArg List.length h1
            simp only [edgeCands, List.length_map] at h2
            exact List.length_eq_zero.mp h2
          refine ⟨fun hne => absurd hedges_nil hne, fun _ => ?_, fun _ _ _ => ?_⟩
          · exact ⟨(reduceList_eq_none _ _).mp hface, hedges_nil⟩
          · simp [DecomposerBruteforce.decompose, hcov, hface, hedge]
  exact ⟨main.1, main.2.1, main.2.2, hdistinct⟩

theorem bruteforce_panic_unreachable_witness :
    ((⟨2, [], [], [(LineProjector.new (0, 0, 0) (1, 0, 0), [0, 1])]⟩ :
        DecomposerBruteforce).decompose (0, 0, 0) .FavorMix).isSome = true :=
  (bruteforce_panic_unreachable _ _ _).1 (by simp)

/-- C6: when at least one tetrahedron covers the query point, `decompose`
returns the weights of a covering tetrahedron whose maximum weight is minimal
(`FavorMix`) or maximal (`FavorDominant`) among all covering tetrahedra,
scattered into a palette-length vector that is zero at every index outside the
chosen tetrahedron. -/
theorem bruteforce_covering_selection (D : DecomposerBruteforce) (pt : Vec3)
    (strat : DecomposerBruteforceStrategy) (h : coveringTetras D pt ≠ []) :
    ∃ pv, pv ∈ coveringTetras D pt ∧
      D.decompose pt strat = some (toGlobal D.num_colors pv.1 pv.2) ∧
      (strat = .FavorMix → ∀ qv ∈ coveringTetras D pt, vecMax pv.1 ≤ vecMax qv.1) ∧
      (strat = .FavorDominant → ∀ qv ∈ coveringTetras D pt, vecMax qv.1 ≤ vecMax pv.1) ∧
      (∀ i, i ∉ pv.2 → (toGlobal D.num_colors pv.1 pv.2).getD i 0 = 0) := by
  cases strat with
  | FavorMix =>
    obtain ⟨res, hred, hmem, hall⟩ := reduceList_chooser_mix (coveringTetras D pt) h
    refine ⟨res, hmem, ?_, fun _ => hall, fun hc => DecomposerBruteforceStrategy.noConfusion hc,
      fun i hi => toGlobal_getD_of_not_mem _ _ _ _ hi⟩
    simp [DecomposerBruteforce.decompose, hred]
  | FavorDominant =>
    obtain ⟨res, hred, hmem, hall⟩ := reduceList_chooser_dominant (coveringTetras D pt) h
    refine ⟨res, hmem, ?_, fun hc => DecomposerBruteforceStrategy.noConfusion hc, fun _ => hall,
      fun i hi => toGlobal_getD_of_not_mem _ _ _ _ hi⟩
    simp [DecomposerBruteforce.decompose, hred]

/-- A concrete decomposer with one (abstract) covering tetrahedron, used to
instantiate the covering-selection theorem. -/
def mixWitnessDecomposer : DecomposerBruteforce :=
  ⟨4, [(⟨fun _ => [(0 : ℚ), 0, 0, 0]⟩, [0, 1, 2, 3])], [], []⟩

theorem bruteforce_covering_selection_witness :
    coveringTetras mixWitnessDecomposer (0, 0, 0) ≠ [] ∧
    ∃ pv, pv ∈ coveringTetras mixWitnessDecomposer (0, 0, 0) ∧
      mixWitnessDecomposer.decompose (0, 0, 0) .FavorMix
        = some (toGlobal mixWitnessDecomposer.num_colors pv.1 pv.2) ∧
      (DecomposerBruteforceStrategy.FavorMix = .FavorMix →
        ∀ qv ∈ coveringTetras mixWitnessDecomposer (0, 0, 0),
          vecMax pv.1 ≤ vecMax qv.1) ∧
      (DecomposerBruteforceStrategy.FavorMix = .FavorDominant →
        ∀ qv ∈ coveringTetras mixWitnessDecomposer (0, 0, 0),
          vecMax qv.1 ≤ vecMax pv.1) ∧
      (∀ i, i ∉ pv.2 →
        (toGlobal mixWitnessDecomposer.num_colors pv.1 pv.2).getD i 0 = 0) := by
  have h : coveringTetras mixWitnessDecomposer (0, 0, 0) ≠ [] := by
    simp [coveringTetras, mixWitnessDecomposer, vecMin]
  exact ⟨h, bruteforce_covering_selection mixWitnessDecomposer (0, 0, 0) .FavorMix h⟩

/-- C7: `DecomposerBruteforce::new` builds one tetrahedron projector per
4-combination, one triangle per 3-combination and one line per 2-combination
of palette indices, silently skipping every combination whose projector
construction fails, and returns `none` exactly when no usable simplex of any
kind remains. -/
theorem bruteforce_construction
    (mkTetra : List Vec3 → Option TetrahedronProjector)
    (mkTri : List Vec3 → Option TriangleProjector)
    (mkLine : List Vec3 → Option LineProjector) (colors : List Vec3) :
    (DecomposerBruteforce.new mkTetra mkTri mkLine colors = none ↔
      (∀ vi ∈ combinations 4 (List.range colors.length),
        mkTetra (vi.map (fun i => colors.getD i (0, 0, 0))) = none) ∧
      (∀ vi ∈ combinations 3 (List.range colors.length),
        mkTri (vi.map (fun i => colors.getD i (0, 0, 0))) = none) ∧
      (∀ vi ∈ combinations 2 (List.range colors.length),
        mkLine (vi.map (fun i => colors.getD i (0, 0, 0))) = none)) ∧
    (∀ D, DecomposerBruteforce.new mkTetra mkTri mkLine colors = some D →
      D.num_colors = colors.length ∧
      (∀ t vi, (t, vi) ∈ D.tetras ↔ vi ∈ combinations 4 (List.range colors.length) ∧
        mkTetra (vi.map (fun i => colors.getD i (0, 0, 0))) = some t) ∧
      (∀ t vi, (t, vi) ∈ D.faces ↔ vi ∈ combinations 3 (List.range colors.length) ∧
        mkTri (vi.map (fun i => colors.getD i (0, 0, 0))) = some t) ∧
      (∀ t vi, (t, vi) ∈ D.edges ↔ vi ∈ combinations 2 (List.range colors.length) ∧
        mkLine (vi.map (fun i => colors.getD i (0, 0, 0))) = some t)) := by
  set T := (combinations 4 (List.range colors.length)).filterMap (fun vi =>
    (mkTetra (vi.map (fun i => colors.getD i (0, 0, 0)))).map (fun t => (t, vi))) with hT
  set F := (combinations 3 (List.range colors.length)).filterMap (fun vi =>
    (mkTri (vi.map (fun i => colors.getD i (0, 0, 0)))).map (fun t => (t, vi))) with hF
  set L := (combinations 2 (List.range colors.length)).filterMap (fun vi =>
    (mkLine (vi.map (fun i => colors.getD i (0, 0, 0)))).map (fun t => (t, vi))) with hL
  have hnew : DecomposerBruteforce.new mkTetra mkTri mkLine colors
      = if T.length > 0 ∨ F.length > 0 ∨ L.length > 0 then
          some ⟨colors.length, T, F, L⟩
        else none := rfl
  have hTnil : T = [] ↔ ∀ vi ∈ combinations 4 (List.range colors.length),
      mkTetra (vi.map (fun i => colors.getD i (0, 0, 0))) = none := by
    rw [hT, List.filterMap_eq_nil_iff]
    constructor
    · intro hall vi hvi
      exact Option.map_eq_none'.mp (hall vi hvi)
    · intro hall vi hvi
      exact Option.map_eq_none'.mpr (hall vi hvi)
  have hFnil : F = [] ↔ ∀ vi ∈ combinations 3 (List.range colors.length),
      mkTri (vi.map (fun i => colors.getD i (0, 0, 0))) = none := by
    rw [hF, List.filterMap_eq_nil_iff]
    constructor
    · intro hall vi hvi
      exact Option.map_eq_none'.mp (hall vi hvi)
    · intro hall vi hvi
      exact Option.map_eq_none'.mpr (hall vi hvi)
  have hLnil : L = [] ↔ ∀ vi ∈ combinations 2 (List.range colors.length),
      mkLine (vi.map (fun i => colors.getD i (0, 0, 0))) = none := by
    rw [hL, List.filterMap_eq_nil_iff]
    constructor
    · intro hall vi hvi
      exact Option.map_eq_none'.mp (hall vi hvi)
    · intro hall vi hvi
      exact Option.map_eq_none'.mpr (hall vi hvi)
  by_cases hcond : T.length > 0 ∨ F.length > 0 ∨ L.length > 0
  · rw [hnew, if_pos hcond]
    constructor
    · constructor
      · intro hsome
        exact Option.noConfusion hsome
      · rintro ⟨h4, h3, h2⟩
        exfalso
        rcases hcond with hc | hc | hc
        · rw [hTnil.mpr h4] at hc
          simp at hc
        · rw [hFnil.mpr h3] at hc
          simp at hc
        · rw [hLnil.mpr h2] at hc
          simp at hc
    · intro D hD
      injection hD with hD'
      subst hD'
      refine ⟨rfl, ?_, ?_, ?_⟩
      · intro t vi
        exact mem_filterMap_construct mkTetra _ _ t vi
      · intro t vi
        exact mem_filterMap_construct mkTri _ _ t vi
      · intro t vi
        exact mem_filterMap_construct mkLine _ _ t vi
  · rw [hnew, if_neg hcond]
    push_neg at hcond
    obtain ⟨hc1, hc2, hc3⟩ := hcond
    refine ⟨?_, ?_⟩
    · simp only [true_iff]
      refine ⟨hTnil.mp ?_, hFnil.mp ?_, hLnil.mp ?_⟩
      · exact List.length_eq_zero.mp (by omega)
      · exact List.length_eq_zero.mp (by omega)
      · exact List.length_eq_zero.mp (by omega)
    · intro D hD
      exact Option.noConfusion hD

theorem bruteforce_construction_witness :
    DecomposerBruteforce.new (fun _ => none) (fun _ => none) (fun _ => none)
      [((0 : ℚ), (0 : ℚ), (0 : ℚ)), (1, 0, 0)] = none :=
  ((bruteforce_construction (fun _ => none) (fun _ => none) (fun _ => none)
      [((0 : ℚ), (0 : ℚ), (0 : ℚ)), (1, 0, 0)]).1).mpr
    ⟨fun _ _ => rfl, fun _ _ => rfl, fun _ _ => rfl⟩

/-- C8: `diffuse_dither` scans rows top-to-bottom, pixels left-to-right,
except that with serpentine enabled every odd row is visited right-to-left (so
row 1 in particular is strictly right-to-left), and on a right-to-left row the
kernel is applied with every horizontal offset `dx` sign-flipped. -/
theorem serpentine_scan_order {Src E Tgt : Type} (ops : ErrOps E)
    (quantize : Src → E → Tgt × E) (m : DiffuseMatrix) (img : DiffuseImage Src)
    (serpentine : Bool) :
    visitOrder (diffuse_dither ops quantize m img serpentine) =
      (List.range img.height).flatMap (fun y =>
        (if serpentine = true ∧ y % 2 = 1 then (List.range img.width).reverse
         else List.range img.width).map (fun x => (x, y))) ∧
    (∀ y s x, serpentine = true → y % 2 = 1 →
      diffuseStep ops quantize m img.width img.height img.get (rowDir serpentine y) y s x
        = diffuseStep ops quantize (negDx m) img.width img.height img.get 1 y s x) := by
  constructor
  · unfold visitOrder diffuse_dither
    rw [foldl_rows_visit]
    simp only [List.map_nil, List.nil_append]
    congr 1
    funext y
    by_cases hcond : serpentine = true ∧ y % 2 = 1
    · rw [if_pos hcond, show rowDir serpentine y = -1 from by unfold rowDir; exact if_pos hcond,
        rangeWithDir_zero_w_neg]
    · rw [if_neg hcond, show rowDir serpentine y = 1 from by unfold rowDir; exact if_neg hcond,
        rangeWithDir_zero_w]
  · intro y s x hserp hodd
    rw [show rowDir serpentine y = -1 from by
      unfold rowDir; exact if_pos ⟨hserp, hodd⟩]
    exact diffuseStep_negDx ops quantize m img.width img.height img.get y s x

/-- Error operations over `ℚ`, a concrete instantiation of the engine's
abstract error type. -/
def wOps : ErrOps ℚ := ⟨0, fun a b => a + b, fun e n => e * n, fun e n => e / n⟩

/-- A concrete quantization strategy over `ℚ` pixels. -/
def wQuant : ℚ → ℚ → ℚ × ℚ := fun s e => (s + e, 0)

/-- A concrete 2×2 test image. -/
def wImg : DiffuseImage ℚ := ⟨2, 2, fun x y => x + 2 * y⟩

theorem serpentine_scan_order_witness :
    visitOrder (diffuse_dither wOps wQuant FloydSteinberg wImg true) =
      (List.range wImg.height).flatMap (fun y =>
        (if (true : Bool) = true ∧ y % 2 = 1 then (List.range wImg.width).reverse
         else List.range wImg.width).map (fun x => (x, y))) ∧
    diffuseStep wOps wQuant FloydSteinberg wImg.width wImg.height wImg.get
        (rowDir true 1) 1 ⟨[], []⟩ 0
      = diffuseStep wOps wQuant (negDx FloydSteinberg) wImg.width wImg.height wImg.get
        1 1 ⟨[], []⟩ 0 :=
  ⟨(serpentine_scan_order wOps wQuant FloydSteinberg wImg true).1,
   (serpentine_scan_order wOps wQuant FloydSteinberg wImg true).2 1 ⟨[], []⟩ 0 rfl rfl⟩

/-- C9: with the no-op kernel (divisor 1, no targets) `diffuse_dither` is
pointwise — for every image, strategy and serpentine flag, the pixel written
at `(x, y)` is `quantize` of the source pixel with the default (zero) carried
error (provided dividing the zero error by the divisor 1 is the identity, as
it is for every real error type); the right-hand side does not mention the
serpentine flag or the scan order. -/
theorem noop_kernel_pointwise {Src E Tgt : Type} (ops : ErrOps E)
    (quantize : Src → E → Tgt × E) (img : DiffuseImage Src) (serp : Bool) (x y : ℕ)
    (hdiv : ops.divNat ops.zero 1 = ops.zero) (hx : x < img.width) (hy : y < img.height) :
    lookupOut (diffuse_dither ops quantize NoDiffuse img serp).out x y
      = some (quantize (img.get x y) ops.zero).1 := by
  have hout : (diffuse_dither ops quantize NoDiffuse img serp).out =
      ((List.range img.height).flatMap (fun y =>
        (rangeWithDir 0 img.width (rowDir serp y)).map (fun x => (x, y)))).map
        (fun k => (k, (quantize (img.get k.1 k.2) (ops.divNat ops.zero 1)).1)) := by
    unfold diffuse_dither
    rw [noDiffuse_rows ops quantize img.width img.height
      (img.width * errorsHeight NoDiffuse) img.get serp _ _ rfl]
    simp only [List.nil_append, List.map_flatMap]
    congr 1
    funext y
    rw [List.map_map]
    rfl
  rw [hout]
  simp only [hdiv]
  exact lookupOut_map_self _ _ x y (mem_scanList img.width img.height x y serp hx hy)

theorem noop_kernel_pointwise_witness :
    wOps.divNat wOps.zero 1 = wOps.zero ∧ 1 < wImg.width ∧ 0 < wImg.height ∧
    lookupOut (diffuse_dither wOps wQuant NoDiffuse wImg true).out 1 0
      = some (wQuant (wImg.get 1 0) wOps.zero).1 :=
  ⟨by simp [wOps], by decide, by decide,
   noop_kernel_pointwise wOps wQuant wImg true 1 0 (by simp [wOps]) (by decide) (by decide)⟩

end EpdDither
